import Mathlib

/-!
Verification of the release-metainfo synchronization script
(`.github/workflows/sync.py`).

The script has two cores:
* a markdown sanitizer (`SanitizeTreeprocessor`), a post-order tree rewrite
  that remaps `strong` to `em` and flattens every tag outside an allow-list
  into text spliced into the surrounding tree;
* a release synchronizer that builds one `release` XML element per fetched
  release (version, date, type, url, description, artifacts) and merges it
  into the persisted collection keyed by the `version` attribute.

The element trees of `xml.etree.ElementTree` are embedded as a nested
inductive; `text`/`tail` slots are `Option String` because ElementTree uses
`None` for absent text, and Python's `+=` on `None` raises `TypeError`,
which the embedding surfaces as an `Except` error.

Two faithfully modelled Python behaviours matter throughout:
* in `sanitize`, the loop variable `idx` of `for idx, child in
  enumerate(element)` shadows the incoming `idx` parameter, so after the
  loop the elision step sees the last enumeration index of the node's own
  child loop, not the node's position in its parent;
* removing the current child from the parent while iterating skips the
  following sibling (live `list` iterator semantics).
-/

namespace RuffleMeta

/-- An `xml.etree.ElementTree` element: tag, attributes (in insertion
order), leading text, trailing text, children.  `none` models Python
`None`. -/
inductive Element where
  | mk (tag : String) (attrs : List (String × String)) (text : Option String)
      (tail : Option String) (children : List Element)

def Element.tag : Element → String
  | .mk t _ _ _ _ => t

def Element.attrs : Element → List (String × String)
  | .mk _ a _ _ _ => a

def Element.text : Element → Option String
  | .mk _ _ tx _ _ => tx

def Element.tail : Element → Option String
  | .mk _ _ _ tl _ => tl

def Element.children : Element → List Element
  | .mk _ _ _ _ cs => cs

/-- Replace the trailing text, modelling `element.tail = ...`. -/
def Element.setTail : Element → Option String → Element
  | .mk t a tx _ cs, tl => .mk t a tx tl cs

/-- Replace the children list, modelling in-place child mutation of the
document root. -/
def Element.setChildren : Element → List Element → Element
  | .mk t a tx tl _, cs => .mk t a tx tl cs

/-- `element.get(key)`, the attribute lookup of ElementTree. -/
def Element.getAttr (e : Element) (key : String) : Option String :=
  (e.attrs.find? (fun p => p.1 == key)).map (fun p => p.2)

mutual
/-- Number of nodes of an element tree (strings ignored). -/
def esize : Element → Nat
  | .mk _ _ _ _ cs => 1 + lsize cs
def lsize : List Element → Nat
  | [] => 0
  | e :: r => esize e + lsize r
end

/-- Errors raised by the embedded Python code.  Only presence matters for
the claims; the strings name the Python exception class. -/
abbrev Err := String

/-! ## The markdown sanitizer (`SanitizeTreeprocessor`) -/

/-- `self.allowed_tags = {'p', 'li', 'ul', 'ol', 'em', 'code'}`. -/
def allowedTags : List String := ["p", "li", "ul", "ol", "em", "code"]

/-- `self.tag_mapping = {'strong': 'em'}` applied as in
`element.tag = self.tag_mapping.get(element.tag)`. -/
def remapTag (t : String) : String :=
  if t == "strong" then "em" else t

mutual
/-- `SanitizeTreeprocessor.to_text`: `result = element.text`, then
`result += to_text(child)` for each child, then `result += element.tail`.
A `none` text or tail makes the `+=` raise `TypeError`. -/
def toText : Element → Except Err String
  | .mk _ _ text tail cs =>
    match text with
    | none => .error "TypeError"
    | some t =>
      match foldTexts t cs with
      | .error e => .error e
      | .ok acc =>
        match tail with
        | none => .error "TypeError"
        | some tl => .ok (acc ++ tl)
def foldTexts : String → List Element → Except Err String
  | acc, [] => .ok acc
  | acc, c :: r =>
    match toText c with
    | .error e => .error e
    | .ok t => foldTexts (acc ++ t) r
end

/-- `lst[j].tail += t` on a list of elements: `IndexError` past the end,
`TypeError` when the tail is `None`. -/
def spliceTailList : List Element → Nat → String → Except Err (List Element)
  | [], _, _ => .error "IndexError"
  | e :: r, 0, t =>
    match e.tail with
    | none => .error "TypeError"
    | some tl => .ok (e.setTail (some (tl ++ t)) :: r)
  | e :: r, j + 1, t =>
    match spliceTailList r j t with
    | .error msg => .error msg
    | .ok r2 => .ok (e :: r2)

mutual
/-- One call of `SanitizeTreeprocessor.sanitize(element, parent, idx)`
together with the loop `for idx, child in enumerate(element)`.

`processNodeF fuel e passedIdx` returns the node after its own child loop
and the remapping, plus the final value of the (shadowed) `idx` variable;
the elision of the node itself is performed by the caller's loop, since in
Python it mutates the parent.

`processChildrenF fuel done pending ptext lastIdx` is the loop: `done` are
the children already passed by the live iterator (index `< done.length`),
`pending` the ones still to visit, `ptext` is `element.text`, and
`lastIdx` the current value of the `idx` variable.  The enumeration
counter of the current iteration equals `done.length`.  When a child is
elided, `parent.remove(child)` shrinks the live list, so the following
sibling moves into `done` unvisited — the skip bug.  The structurally
decreasing `fuel` only serves termination; `sanitizeRun` supplies enough
of it for the whole traversal. -/
def processNodeF : Nat → Element → Nat → Except Err (Element × Nat)
  | 0, _, _ => .error "OutOfFuel"
  | fuel + 1, .mk tag attrs text tail cs, passedIdx =>
    match processChildrenF fuel [] cs text passedIdx with
    | .error e => .error e
    | .ok (cs2, text2, lastIdx) =>
      .ok (.mk (remapTag tag) attrs text2 tail cs2, lastIdx)
def processChildrenF : Nat → List Element → List Element → Option String → Nat →
    Except Err (List Element × Option String × Nat)
  | 0, _, _, _, _ => .error "OutOfFuel"
  | _ + 1, done, [], ptext, lastIdx => .ok (done, ptext, lastIdx)
  | fuel + 1, done, child :: rest, ptext, _ =>
    match processNodeF fuel child done.length with
    | .error e => .error e
    | .ok (child2, childLast) =>
      if allowedTags.contains child2.tag then
        processChildrenF fuel (done ++ [child2]) rest ptext done.length
      else
        match toText child2 with
        | .error e => .error e
        | .ok t =>
          if childLast == 0 then
            match ptext with
            | none => .error "TypeError"
            | some s =>
              match rest with
              | [] => .ok (done, some (s ++ t), done.length)
              | skip :: rest2 =>
                processChildrenF fuel (done ++ [skip]) rest2 (some (s ++ t)) done.length
          else
            if childLast - 1 < done.length then
              match spliceTailList done (childLast - 1) t with
              | .error e => .error e
              | .ok done2 =>
                match rest with
                | [] => .ok (done2, ptext, done.length)
                | skip :: rest2 =>
                  processChildrenF fuel (done2 ++ [skip]) rest2 ptext done.length
            else
              if childLast - 1 == done.length then
                match child2.tail with
                | none => .error "TypeError"
                | some _ =>
                  match rest with
                  | [] => .ok (done, ptext, done.length)
                  | skip :: rest2 =>
                    processChildrenF fuel (done ++ [skip]) rest2 ptext done.length
              else
                match spliceTailList rest (childLast - 1 - done.length - 1) t with
                | .error e => .error e
                | .ok rest2 =>
                  match rest2 with
                  | [] => .ok (done, ptext, done.length)
                  | skip :: rest3 =>
                    processChildrenF fuel (done ++ [skip]) rest3 ptext done.length
end

/-- `SanitizeTreeprocessor.run(root) = sanitize(root, None, 0)`: the root
has no parent, so it is never elided; its children are processed and its
tag remapped.  The fuel `2 * esize + 1` covers the deepest possible call
chain (each call passes `fuel - 1` to its callees). -/
def sanitizeRun (e : Element) : Except Err Element :=
  match processNodeF (2 * esize e + 1) e 0 with
  | .error err => .error err
  | .ok (e2, _) => .ok e2

/-- `generate_metainfo_description`: render the body, sanitize, and wrap
the result in a `description` container.  The markdown rendering itself is
an external library, so the body is taken as an already-rendered tree;
the string concatenation plus re-parse keeps the root's text and children
inside the new container. -/
def generate_metainfo_description (bodyTree : Element) : Except Err Element :=
  match sanitizeRun bodyTree with
  | .error e => .error e
  | .ok root => .ok (.mk "description" [] root.text none root.children)

/-! ## Reference functions for the sanitizer claims -/

mutual
/-- Tag remapping applied to a whole tree, nothing else changed. -/
def remapTree : Element → Element
  | .mk tag attrs text tail cs => .mk (remapTag tag) attrs text tail (remapList cs)
def remapList : List Element → List Element
  | [] => []
  | e :: r => remapTree e :: remapList r
end

mutual
/-- Every node of the tree has an allowed tag after remapping (the
no-elision precondition). -/
def goodTree : Element → Bool
  | .mk tag _ _ _ cs => allowedTags.contains (remapTag tag) && goodList cs
def goodList : List Element → Bool
  | [] => true
  | e :: r => goodTree e && goodList r
end

mutual
/-- Every node of the tree has a tag in the allowed set. -/
def allowedT : Element → Bool
  | .mk tag _ _ _ cs => allowedTags.contains tag && allowedL cs
def allowedL : List Element → Bool
  | [] => true
  | e :: r => allowedT e && allowedL r
end

/-! ## The release synchronizer -/

def REPOSITORY : String := "kjarosh/ruffle"

/-- `version = tag_name.lstrip('v')`: Python's `lstrip` removes **every**
leading character from the given set, so all leading `'v'`s are dropped. -/
def versionOfTag (tagName : String) : String :=
  String.mk (tagName.data.dropWhile (fun c => c == 'v'))

/-- Modelled from the spec/stdlib: `urlsplit(url).path` of `urllib.parse`
(standard library, outside the repository) — the URL without fragment,
query, scheme and network location. -/
def urlsplitPath (url : String) : String :=
  let noFrag := (url.splitOn "#").headD url
  let noQuery := (noFrag.splitOn "?").headD noFrag
  match noQuery.splitOn "://" with
  | [] => noQuery
  | [p] => p
  | _ :: hostPath :: _ =>
    match hostPath.splitOn "/" with
    | [] => ""
    | [_] => ""
    | _ :: segs => "/" ++ String.intercalate "/" segs

/-- Modelled from the spec/stdlib: `os.path.basename`, the part after the
last slash. -/
def basename (p : String) : String :=
  (p.splitOn "/").getLastD p

/-- `os.path.basename(urlsplit(asset['url']).path)`. -/
def filenameOfUrl (url : String) : String :=
  basename (urlsplitPath url)

/-- The `if filename.endswith(...)` chain of `generate_metainfo_artifacts`;
every matched branch sets `artifact_type = 'binary'` and one platform, the
final `else` is `continue`. -/
def classifyPlatform (filename : String) : Option String :=
  if filename.endsWith "-linux-x86_64.tar.gz" then some "x86_64-linux-gnu"
  else if filename.endsWith "-windows-x86_32.zip" then some "i386-windows-msvc"
  else if filename.endsWith "-windows-x86_64.zip" then some "x86_64-windows-msvc"
  else if filename.endsWith "-macos-universal.tar.gz" then some "any-macos-any"
  else none

/-- One entry of the release's `assets` JSON array; the script reads
`asset['url']` and `asset['size']`. -/
structure AssetJson where
  url : String
  size : Int

/-- The synthetic source artifact built unconditionally for each release. -/
def sourceArtifact (tagName : String) : Element :=
  .mk "artifact" [("type", "source")] none none
    [.mk "location" []
      (some ("https://github.com/" ++ REPOSITORY ++ "/archive/refs/tags/" ++ tagName ++ ".zip"))
      none [],
     .mk "filename" [] (some ("ruffle-" ++ tagName ++ ".zip")) none []]

/-- The binary artifact element built for a matched asset: location is the
asset URL, filename its basename, size taken verbatim from the metadata. -/
def binaryArtifact (asset : AssetJson) (platform : String) : Element :=
  .mk "artifact" [("type", "binary"), ("platform", platform)] none none
    [.mk "location" [] (some asset.url) none [],
     .mk "filename" [] (some (filenameOfUrl asset.url)) none [],
     .mk "size" [("type", "download")] (some (toString asset.size)) none []]

/-- `generate_metainfo_artifacts`: the `artifacts` element holding the
source artifact followed by one binary artifact per matched asset, skipped
assets contributing nothing. -/
def generate_metainfo_artifacts (tagName : String) (assets : List AssetJson) : Element :=
  .mk "artifacts" [] none none
    (sourceArtifact tagName ::
      assets.filterMap (fun a =>
        (classifyPlatform (filenameOfUrl a.url)).map (fun p => binaryArtifact a p)))

/-- The JSON object returned by `gh release view --json
assets,body,createdAt,isPrerelease,name,publishedAt,url`.  The free-text
`body` is fed to the markdown renderer (an external library), so it is
taken here as the renderer's element tree. -/
structure ReleaseJson where
  assets : List AssetJson
  body : Element
  createdAt : String
  isPrerelease : Bool
  name : String
  publishedAt : String
  url : String

/-- `datetime.fromisoformat(publishedAt).strftime('%Y-%m-%d')`: for the
canonical ISO-8601 timestamps returned by the release host this is the
first ten characters (stdlib `datetime` modelled from the spec: publish
timestamp truncated to the calendar day). -/
def dateOfPublishedAt (publishedAt : String) : String :=
  publishedAt.take 10

/-- `generate_metainfo_release`: `none` for the fetched JSON models a
failed subprocess invocation or malformed JSON (`json.loads` raises); a
sanitizer failure on the body propagates.  On success the `release`
element carries the `version`, `date` and `type` attributes and the
`url`, `description` and `artifacts` children, in source order. -/
def generate_metainfo_release (tagName : String) (fetched : Option ReleaseJson) :
    Except Err Element :=
  match fetched with
  | none => .error "JSONDecodeError"
  | some rj =>
    match generate_metainfo_description rj.body with
    | .error e => .error e
    | .ok desc =>
      .ok (.mk "release"
        [("version", versionOfTag tagName),
         ("date", dateOfPublishedAt rj.publishedAt),
         ("type", if rj.isPrerelease then "snapshot" else "stable")]
        none none
        [.mk "url" [] (some rj.url) none [],
         desc,
         generate_metainfo_artifacts tagName rj.assets])

/-- The scan `for idx, existing_release in enumerate(...)` with
`if existing_release.get('version') == xml_release.get('version'):
root[idx] = xml_release; break`: replace the first version match, keeping
its position; `none` when no record matches. -/
def replaceByVersion : List Element → Element → Option (List Element)
  | [], _ => none
  | ex :: rest, r =>
    if ex.getAttr "version" == r.getAttr "version" then some (r :: rest)
    else
      match replaceByVersion rest r with
      | some rest2 => some (ex :: rest2)
      | none => none

/-- Merging one built release into the collection: replace the first
record with the same `version`, otherwise `insert(0, ...)`. -/
def mergeRelease (records : List Element) (r : Element) : List Element :=
  match replaceByVersion records r with
  | some recs => recs
  | none => r :: records

/-- The whole merge loop over a list of built records. -/
def mergeAll (records : List Element) (rs : List Element) : List Element :=
  rs.foldl mergeRelease records

/-- Building every release record in processing order, aborting at the
first failure (the loop body raises before any later record is built). -/
def buildAll : List (String × Option ReleaseJson) → Except Err (List Element)
  | [] => .ok []
  | (t, rj) :: rest =>
    match generate_metainfo_release t rj with
    | .error e => .error e
    | .ok r =>
      match buildAll rest with
      | .error e => .error e
      | .ok rs => .ok (r :: rs)

/-- The fetch-build-merge loop of `sync_metainfo_releases` over the
already-reversed release list, threading the collection. -/
def syncGo : List Element → List (String × Option ReleaseJson) → Except Err (List Element)
  | acc, [] => .ok acc
  | acc, (t, rj) :: rest =>
    match generate_metainfo_release t rj with
    | .error e => .error e
    | .ok r => syncGo (mergeRelease acc r) rest

def xmlOfAttrs (attrs : List (String × String)) : String :=
  String.join (attrs.map (fun p => " " ++ p.1 ++ "=\"" ++ p.2 ++ "\""))

mutual
/-- Modelled from the spec/stdlib: the document writer (`xml.indent` plus
`ElementTree.write`, both standard library, outside the repository): a
deterministic serialization of the element tree. -/
def xmlOfElement : Element → String
  | .mk tag attrs text tail cs =>
    "<" ++ tag ++ xmlOfAttrs attrs ++ ">" ++ (text.getD "")
      ++ xmlOfList cs ++ "</" ++ tag ++ ">" ++ (tail.getD "")
def xmlOfList : List Element → String
  | [] => ""
  | e :: r => xmlOfElement e ++ xmlOfList r
end

/-- The bytes written to disk: the serialized document plus the trailing
newline appended with `fd.write('\n')`. -/
def serializeDoc (doc : Element) : String :=
  xmlOfElement doc ++ "\n"

/-- `sync_metainfo_releases`: parse the persisted document (given here as
`doc`), fetch the release list (given with each release's view result),
process it oldest-first (`reversed`), and only after the whole loop write
the document once.  The returned string is the written file content; an
error means the run aborted with nothing written. -/
def sync_metainfo_releases (doc : Element)
    (fetched : List (String × Option ReleaseJson)) : Except Err String :=
  match syncGo doc.children fetched.reverse with
  | .error e => .error e
  | .ok rs => .ok (serializeDoc (doc.setChildren rs))

/-- No two records of the collection share a version value. -/
def noDupVersions : List Element → Bool
  | [] => true
  | e :: r =>
    r.all (fun x => !(x.getAttr "version" == e.getAttr "version")) && noDupVersions r

/-! ## Reference functions for the synchronizer claims -/

/-- From the claim's words: the tag with a **single** leading `v` stripped
if present, the tag unchanged otherwise. -/
def stripSingleLeadingV (tagName : String) : String :=
  match tagName.data with
  | 'v' :: rest => String.mk rest
  | _ => tagName

/-- From the amended claim's words: strip **all** leading `v` characters,
one at a time. -/
def stripLeadingVs : List Char → List Char
  | [] => []
  | c :: cs => if c = 'v' then stripLeadingVs cs else c :: cs

def stripAllLeadingV (tagName : String) : String :=
  String.mk (stripLeadingVs tagName.data)

/-- The claim's classification table, filename suffix to platform; the
artifact type is `binary` for every matched row. -/
def suffixTable : List (String × String) :=
  [("-linux-x86_64.tar.gz", "x86_64-linux-gnu"),
   ("-windows-x86_32.zip", "i386-windows-msvc"),
   ("-windows-x86_64.zip", "x86_64-windows-msvc"),
   ("-macos-universal.tar.gz", "any-macos-any")]

/-- Claim-side classification: look the filename's suffix up in the table. -/
def classifyBySuffix (filename : String) : Option (String × String) :=
  (suffixTable.find? (fun p => filename.endsWith p.1)).map (fun p => ("binary", p.2))

/-! ## Concrete inputs used in counterexamples and witnesses

The markdown renderer is an external library; the bodies below are its
element trees for simple inputs, modelled from the spec (the prettifier
gives block-level elements newline texts and tails). -/

/-- Rendered tree of a body with two consecutive headings (`# A`, `# B`):
two `h1` elements, both outside the allow-list. -/
def twoHeadings : Element :=
  .mk "div" [] (some "\n") none
    [.mk "h1" [] (some "A") (some "\n") [],
     .mk "h1" [] (some "B") (some "\n") []]

/-- Rendered tree of a paragraph followed by a blockquote: the blockquote
is the second child and itself has one child paragraph. -/
def paraQuote : Element :=
  .mk "div" [] (some "\n") none
    [.mk "p" [] (some "para") (some "\n") [],
     .mk "blockquote" [] (some "\n") (some "\n")
       [.mk "p" [] (some "quote") (some "\n") []]]

/-- Rendered tree of a thematic break `---`: an `hr` element whose leading
text is absent (`None`). -/
def hrBody : Element :=
  .mk "div" [] (some "\n") none [.mk "hr" [] none (some "\n") []]

/-- A rendered body containing only allowed-equivalent markup (a paragraph
with strong emphasis). -/
def paraBody : Element :=
  .mk "div" [] (some "\n") none
    [.mk "p" [] (some "hi ") (some "\n") [.mk "strong" [] (some "x") (some "") []]]

/-- An empty rendered body. -/
def emptyDiv : Element := .mk "div" [] (some "") none []

/-- A fetched release with no assets and an empty body. -/
def rjEmpty : ReleaseJson :=
  ⟨[], emptyDiv, "2024-01-02T03:04:05Z", false, "v1.0",
   "2024-01-02T03:04:05Z", "https://github.com/kjarosh/ruffle/releases/tag/v1.0"⟩

/-- An empty persisted collection document. -/
def doc0 : Element := .mk "releases" [] (some "\n") none []

def fetchedGood : List (String × Option ReleaseJson) := [("v1.0", some rjEmpty)]

/-- The same fetch with the external call failing (malformed JSON). -/
def fetchedBad : List (String × Option ReleaseJson) := [("v1.0", none)]

/-- The release record built from `rjEmpty` for tag `v1.0`. -/
def relV1 : Element :=
  .mk "release" [("version", "1.0"), ("date", "2024-01-02"), ("type", "stable")] none none
    [.mk "url" [] (some "https://github.com/kjarosh/ruffle/releases/tag/v1.0") none [],
     .mk "description" [] (some "") none [],
     .mk "artifacts" [] none none [sourceArtifact "v1.0"]]

/-- Persisted records used in the merge witnesses. -/
def recA : Element := .mk "release" [("version", "1.0")] none none []

def recB : Element := .mk "release" [("version", "2.0")] none none []

/-- A rebuilt record for version `2.0` (different content, same version). -/
def recB2 : Element := .mk "release" [("version", "2.0"), ("date", "x")] none none []

def recC : Element := .mk "release" [("version", "3.0")] none none []

/-! # Theorems -/

/-! ## Version computation (C3) -/

theorem dropWhile_v_eq_stripLeadingVs (l : List Char) :
    l.dropWhile (fun c => c == 'v') = stripLeadingVs l := by
  induction l with
  | nil => rfl
  | cons c cs ih =>
    by_cases h : c = 'v'
    · subst h
      simpa [List.dropWhile_cons, stripLeadingVs] using ih
    · simp [List.dropWhile_cons, stripLeadingVs, h]

theorem stripLeadingVs_no_leading_v (l : List Char) :
    (stripLeadingVs l).head? ≠ some 'v' := by
  induction l with
  | nil => simp [stripLeadingVs]
  | cons c cs ih =>
    by_cases h : c = 'v'
    · simpa [stripLeadingVs, h] using ih
    · simp [stripLeadingVs, h]

/-- **C3, counterexample.** The claim says a single leading `v` is
stripped, so a tag beginning with two `v`s would keep the second one; the
code uses `lstrip('v')`, which strips all of them: for tag `vv1.2.0` the
record's version is `1.2.0`, not the claimed `v1.2.0`. -/
theorem c3_lstrip_counterexample :
    versionOfTag "vv1.2.0" = "1.2.0" ∧ stripSingleLeadingV "vv1.2.0" = "v1.2.0" ∧
      versionOfTag "vv1.2.0" ≠ stripSingleLeadingV "vv1.2.0" := by
  refine ⟨rfl, rfl, ?_⟩
  decide

/-- **C3, amended.** For every tag name, the release record's version is
the tag with **all** leading `v` characters stripped (Python
`lstrip('v')`), hence the resulting version never starts with `v`. -/
theorem c3_version_strips_all_leading_vs (tagName : String) :
    versionOfTag tagName = stripAllLeadingV tagName ∧
      (versionOfTag tagName).data.head? ≠ some 'v' := by
  unfold versionOfTag stripAllLeadingV
  rw [dropWhile_v_eq_stripLeadingVs]
  exact ⟨rfl, stripLeadingVs_no_leading_v tagName.data⟩

/-! ## Sanitizer totality (C10) -/

/-- **C10.** The sanitizer is not total: a thematic break renders to an
`hr` element with absent (`None`) leading text; `to_text` then evaluates
`None += ...`, a `TypeError`, so the run fails instead of producing a
sanitized tree. -/
theorem c10_sanitizer_not_total :
    toText (.mk "hr" [] none (some "\n") []) = .error "TypeError" ∧
    sanitizeRun hrBody = .error "TypeError" ∧
    generate_metainfo_description hrBody = .error "TypeError" :=
  ⟨rfl, rfl, rfl⟩

/-! ## Sanitizer output invariant (C1) -/

/-- **C1.** The code contradicts the claim: on two consecutive disallowed
siblings (rendered from a body of two headings) the first `h1` is elided
and removed, and the removal makes the live iterator skip the second
`h1`, which survives sanitization with its disallowed tag below the
top-level container.  The code's evident intent — an allow-list
sanitizer — matches the claim; the mutation-during-iteration is the
slip. -/
theorem c1_skipped_sibling_survives :
    sanitizeRun twoHeadings =
      .ok (.mk "div" [] (some "\nA\n") none
        [.mk "h1" [] (some "B") (some "\n") []]) ∧
    allowedTags.contains "h1" = false :=
  ⟨rfl, rfl⟩

/-! ## Elision splicing (C2) -/

/-- **C2.** The code contradicts the claim, which says the splice target
is chosen by the elided node's position **regardless of how many children
it has**.  Here the blockquote is its parent's *second* child but has one
child, so the loop-shadowed `idx` is `0` after its own child loop and its
text is prepended to the parent's leading text (which becomes
`"\n\nquote\n\n"`), while the claim requires it appended to the preceding
sibling's tail (which instead stays `"\n"`).  The `sanitize` parameter
`idx` exists to carry the node's position; the `for idx, child in
enumerate(...)` rebinding is the slip.  The final inequality records
that the two targets received different values. -/
theorem c2_shadowed_idx_splice :
    sanitizeRun paraQuote =
      .ok (.mk "div" [] (some "\n\nquote\n\n") none
        [.mk "p" [] (some "para") (some "\n") []]) ∧
    (some "\n\nquote\n\n" : Option String) ≠ some "\n" :=
  ⟨rfl, by decide⟩

/-- The claimed C2 splice rule does hold for an elided node without
children (then the shadowed `idx` equals the node's position):
its text — leading text plus descendants plus trailing text — goes to the
preceding sibling's tail when it has one, and to the parent's leading
text when it is the first child.  Shown for arbitrary text content in
both configurations. -/
theorem childless_elision_splice (pt t1 tl1 t2 tl2 : String) (pt0 : Option String) :
    sanitizeRun (.mk "div" [] pt0 none
        [.mk "em" [] (some t1) (some tl1) [],
         .mk "h1" [] (some t2) (some tl2) []]) =
      .ok (.mk "div" [] pt0 none
        [.mk "em" [] (some t1) (some (tl1 ++ (t2 ++ tl2))) []]) ∧
    sanitizeRun (.mk "div" [] (some pt) none
        [.mk "h1" [] (some t2) (some tl2) []]) =
      .ok (.mk "div" [] (some (pt ++ (t2 ++ tl2))) none []) :=
  ⟨rfl, rfl⟩

/-! ## Artifact classification (C8, C9) -/

theorem filterMap_ext (l : List AssetJson) (f g : AssetJson → Option Element)
    (h : ∀ a, f a = g a) : l.filterMap f = l.filterMap g := by
  induction l with
  | nil => rfl
  | cons a r ih => simp [List.filterMap_cons, h a, ih]

theorem classifyBySuffix_eq (f : String) :
    (classifyPlatform f).map (fun pl => ("binary", pl)) = classifyBySuffix f := by
  unfold classifyPlatform classifyBySuffix suffixTable
  cases h1 : f.endsWith "-linux-x86_64.tar.gz" <;>
    cases h2 : f.endsWith "-windows-x86_32.zip" <;>
      cases h3 : f.endsWith "-windows-x86_64.zip" <;>
        cases h4 : f.endsWith "-macos-universal.tar.gz" <;>
          simp [h1, h2, h3, h4, List.find?]

theorem binary_matches_table (a : AssetJson) :
    (classifyPlatform (filenameOfUrl a.url)).map (fun p => binaryArtifact a p) =
      match classifyBySuffix (filenameOfUrl a.url) with
      | some tp =>
          some (.mk "artifact" [("type", tp.1), ("platform", tp.2)] none none
            [.mk "location" [] (some a.url) none [],
             .mk "filename" [] (some (filenameOfUrl a.url)) none [],
             .mk "size" [("type", "download")] (some (toString a.size)) none []])
      | none => none := by
  rw [← classifyBySuffix_eq]
  cases classifyPlatform (filenameOfUrl a.url) with
  | none => rfl
  | some pl => rfl

/-- **C8.** Binary-artifact classification is a pure function of the asset
filename's suffix, following the claim's four-row suffix-to-platform
table; a matched asset yields a `binary` artifact whose size is taken
verbatim from the metadata, and an unmatched asset contributes nothing. -/
theorem c8_artifact_classification (tagName : String) (assets : List AssetJson) :
    generate_metainfo_artifacts tagName assets =
      .mk "artifacts" [] none none
        (sourceArtifact tagName ::
          assets.filterMap (fun a =>
            match classifyBySuffix (filenameOfUrl a.url) with
            | some tp =>
                some (.mk "artifact" [("type", tp.1), ("platform", tp.2)] none none
                  [.mk "location" [] (some a.url) none [],
                   .mk "filename" [] (some (filenameOfUrl a.url)) none [],
                   .mk "size" [("type", "download")] (some (toString a.size)) none []])
            | none => none)) := by
  unfold generate_metainfo_artifacts
  rw [filterMap_ext assets _ _ (fun a => binary_matches_table a)]

theorem countP_source_binaries (assets : List AssetJson) :
    (assets.filterMap (fun a =>
        (classifyPlatform (filenameOfUrl a.url)).map (fun p => binaryArtifact a p))).countP
      (fun x => x.getAttr "type" == some "source") = 0 := by
  induction assets with
  | nil => rfl
  | cons a r ih =>
    rw [List.filterMap_cons]
    cases h : classifyPlatform (filenameOfUrl a.url) with
    | none => simpa using ih
    | some pl =>
      have hb : ((binaryArtifact a pl).getAttr "type" == some "source") = false := rfl
      simp [List.countP_cons, hb, ih]

/-- **C9.** The artifact list always starts with the synthetic source
artifact — location the deterministic archive URL derived from the
project identifier and the tag, filename `ruffle-<tag>.zip` — and it is
the only artifact of type `source`, independent of the asset list. -/
theorem c9_source_artifact (tagName : String) (assets : List AssetJson) :
    (generate_metainfo_artifacts tagName assets).children.head? =
      some (.mk "artifact" [("type", "source")] none none
        [.mk "location" []
          (some ("https://github.com/kjarosh/ruffle/archive/refs/tags/" ++ tagName ++ ".zip"))
          none [],
         .mk "filename" [] (some ("ruffle-" ++ tagName ++ ".zip")) none []]) ∧
    (generate_metainfo_artifacts tagName assets).children.countP
      (fun x => x.getAttr "type" == some "source") = 1 := by
  constructor
  · rfl
  · have hs : ((sourceArtifact tagName).getAttr "type" == some "source") = true := rfl
    show List.countP _ (sourceArtifact tagName :: _) = 1
    simp [List.countP_cons, hs, countP_source_binaries assets]

/-! ## Merge into the persisted collection (C4, C5) -/

theorem replaceByVersion_none (records : List Element) (r : Element)
    (h : records.all (fun ex => !(ex.getAttr "version" == r.getAttr "version")) = true) :
    replaceByVersion records r = none := by
  induction records with
  | nil => rfl
  | cons ex rest ih =>
    rw [List.all_cons, Bool.and_eq_true] at h
    obtain ⟨h1, h2⟩ := h
    rw [Bool.not_eq_true'] at h1
    simp [replaceByVersion, h1, ih h2]

theorem replaceByVersion_first (r ex : Element) (after : List Element) :
    ∀ before : List Element,
      before.all (fun y => !(y.getAttr "version" == r.getAttr "version")) = true →
      (ex.getAttr "version" == r.getAttr "version") = true →
      replaceByVersion (before ++ ex :: after) r = some (before ++ r :: after) := by
  intro before
  induction before with
  | nil =>
    intro _ hex
    simp [replaceByVersion, hex]
  | cons y ys ih =>
    intro hall hex
    rw [List.all_cons, Bool.and_eq_true] at hall
    obtain ⟨h1, h2⟩ := hall
    rw [Bool.not_eq_true'] at h1
    simp [replaceByVersion, h1, ih h2 hex]

/-- **C4.** Merging a built record: when no persisted record shares its
version it is inserted at index 0 with every existing record preserved in
order; when one does, the first such record (position witnessed by the
`before`/`ex`/`after` split with no match in `before`) is replaced in
place and every other record keeps its position. -/
theorem c4_merge_replace_or_prepend (records : List Element) (r : Element) :
    (records.all (fun ex => !(ex.getAttr "version" == r.getAttr "version")) = true →
        mergeRelease records r = r :: records) ∧
    (∀ before ex after, records = before ++ ex :: after →
        before.all (fun y => !(y.getAttr "version" == r.getAttr "version")) = true →
        (ex.getAttr "version" == r.getAttr "version") = true →
        mergeRelease records r = before ++ r :: after) := by
  constructor
  · intro h
    unfold mergeRelease
    rw [replaceByVersion_none records r h]
  · intro before ex after hrec hall hex
    subst hrec
    unfold mergeRelease
    rw [replaceByVersion_first r ex after before hall hex]

/-- Witness for C4: version `3.0` is new and goes to the front; version
`2.0` is replaced in place at index 1. -/
theorem c4_witness :
    mergeRelease [recA, recB] recC = [recC, recA, recB] ∧
    mergeRelease [recA, recB] recB2 = [recA] ++ recB2 :: [] :=
  ⟨(c4_merge_replace_or_prepend [recA, recB] recC).1 rfl,
   (c4_merge_replace_or_prepend [recA, recB] recB2).2 [recA] recB [] rfl rfl rfl⟩

theorem replaceByVersion_length : ∀ (records l2 : List Element) (r : Element),
    replaceByVersion records r = some l2 → l2.length = records.length := by
  intro records
  induction records with
  | nil => intro l2 r h; simp [replaceByVersion] at h
  | cons ex rest ih =>
    intro l2 r h
    unfold replaceByVersion at h
    by_cases hc : (ex.getAttr "version" == r.getAttr "version") = true
    · rw [if_pos hc] at h
      injection h with h
      subst h
      simp
    · rw [if_neg hc] at h
      cases hrr : replaceByVersion rest r with
      | none => rw [hrr] at h; cases h
      | some rest2 =>
        rw [hrr] at h
        injection h with h
        subst h
        simp [ih rest2 r hrr]

theorem replaceByVersion_all (p : Element → Bool) :
    ∀ (records l2 : List Element) (r : Element),
      replaceByVersion records r = some l2 → records.all p = true → p r = true →
      l2.all p = true := by
  intro records
  induction records with
  | nil => intro l2 r h; simp [replaceByVersion] at h
  | cons ex rest ih =>
    intro l2 r h hall hr
    rw [List.all_cons, Bool.and_eq_true] at hall
    obtain ⟨h1, h2⟩ := hall
    unfold replaceByVersion at h
    by_cases hc : (ex.getAttr "version" == r.getAttr "version") = true
    · rw [if_pos hc] at h
      injection h with h
      subst h
      rw [List.all_cons, Bool.and_eq_true]
      exact ⟨hr, h2⟩
    · rw [if_neg hc] at h
      cases hrr : replaceByVersion rest r with
      | none => rw [hrr] at h; cases h
      | some rest2 =>
        rw [hrr] at h
        injection h with h
        subst h
        rw [List.all_cons, Bool.and_eq_true]
        exact ⟨h1, ih rest2 r hrr h2 hr⟩

theorem replaceByVersion_none_all : ∀ (records : List Element) (r : Element),
    replaceByVersion records r = none →
    records.all (fun ex => !(ex.getAttr "version" == r.getAttr "version")) = true := by
  intro records
  induction records with
  | nil => intro r _; rfl
  | cons ex rest ih =>
    intro r h
    unfold replaceByVersion at h
    by_cases hc : (ex.getAttr "version" == r.getAttr "version") = true
    · rw [if_pos hc] at h; cases h
    · rw [if_neg hc] at h
      cases hrr : replaceByVersion rest r with
      | none =>
        rw [List.all_cons, Bool.and_eq_true]
        refine ⟨?_, ih r hrr⟩
        rw [Bool.not_eq_true']
        exact Bool.eq_false_iff.mpr hc
      | some rest2 => rw [hrr] at h; cases h

theorem replaceByVersion_some_any : ∀ (records l2 : List Element) (r : Element),
    replaceByVersion records r = some l2 →
    records.any (fun ex => ex.getAttr "version" == r.getAttr "version") = true := by
  intro records
  induction records with
  | nil => intro l2 r h; simp [replaceByVersion] at h
  | cons ex rest ih =>
    intro l2 r h
    unfold replaceByVersion at h
    by_cases hc : (ex.getAttr "version" == r.getAttr "version") = true
    · simp [List.any_cons, hc]
    · rw [if_neg hc] at h
      cases hrr : replaceByVersion rest r with
      | none => rw [hrr] at h; cases h
      | some rest2 => simp [List.any_cons, ih rest2 r hrr]

theorem replaceByVersion_noDup : ∀ (records l2 : List Element) (r : Element),
    replaceByVersion records r = some l2 → noDupVersions records = true →
    noDupVersions l2 = true := by
  intro records
  induction records with
  | nil => intro l2 r h; simp [replaceByVersion] at h
  | cons ex rest ih =>
    intro l2 r h hnd
    unfold noDupVersions at hnd
    rw [Bool.and_eq_true] at hnd
    obtain ⟨hd1, hd2⟩ := hnd
    unfold replaceByVersion at h
    by_cases hc : (ex.getAttr "version" == r.getAttr "version") = true
    · rw [if_pos hc] at h
      injection h with h
      subst h
      have hx : ex.getAttr "version" = r.getAttr "version" := eq_of_beq hc
      unfold noDupVersions
      rw [Bool.and_eq_true]
      refine ⟨?_, hd2⟩
      rw [← hx]
      exact hd1
    · rw [if_neg hc] at h
      cases hrr : replaceByVersion rest r with
      | none => rw [hrr] at h; cases h
      | some rest2 =>
        rw [hrr] at h
        injection h with h
        subst h
        have hne : ex.getAttr "version" ≠ r.getAttr "version" := by
          intro e
          exact hc (e ▸ beq_self_eq_true (r.getAttr "version"))
        unfold noDupVersions
        rw [Bool.and_eq_true]
        constructor
        · refine replaceByVersion_all _ rest rest2 r hrr hd1 ?_
          rw [Bool.not_eq_true']
          exact beq_eq_false_iff_ne.mpr (fun e => hne e.symm)
        · exact ih rest2 r hrr hd2

/-- **C5.** Merging preserves the at-most-one-record-per-version
invariant, and never deletes: on a version match the collection keeps its
length (replacement), otherwise it grows by exactly one (insertion). -/
theorem c5_merge_preserves_invariant (records : List Element) (r : Element)
    (h : noDupVersions records = true) :
    noDupVersions (mergeRelease records r) = true ∧
    (records.any (fun ex => ex.getAttr "version" == r.getAttr "version") = true →
        (mergeRelease records r).length = records.length) ∧
    (records.any (fun ex => ex.getAttr "version" == r.getAttr "version") = false →
        (mergeRelease records r).length = records.length + 1) := by
  cases hrr : replaceByVersion records r with
  | none =>
    have hall := replaceByVersion_none_all records r hrr
    unfold mergeRelease
    rw [hrr]
    refine ⟨?_, ?_, ?_⟩
    · unfold noDupVersions
      rw [Bool.and_eq_true]
      exact ⟨hall, h⟩
    · intro hany
      exfalso
      rw [List.any_eq_true] at hany
      obtain ⟨x, hx, hpx⟩ := hany
      rw [List.all_eq_true] at hall
      have := hall x hx
      rw [hpx] at this
      cases this
    · intro _
      simp
  | some l2 =>
    unfold mergeRelease
    rw [hrr]
    refine ⟨replaceByVersion_noDup records l2 r hrr h, ?_, ?_⟩
    · intro _
      exact replaceByVersion_length records l2 r hrr
    · intro hany
      exfalso
      rw [replaceByVersion_some_any records l2 r hrr] at hany
      cases hany

/-- Witness for C5: replacing version `2.0` keeps length 2 and the
invariant; inserting version `3.0` gives length 3. -/
theorem c5_witness :
    noDupVersions (mergeRelease [recA, recB] recB2) = true ∧
    (mergeRelease [recA, recB] recB2).length = 2 ∧
    (mergeRelease [recA, recB] recC).length = 3 :=
  ⟨(c5_merge_preserves_invariant [recA, recB] recB2 rfl).1,
   (c5_merge_preserves_invariant [recA, recB] recB2 rfl).2.1 rfl,
   (c5_merge_preserves_invariant [recA, recB] recC rfl).2.2 rfl⟩

/-! ## Synchronizer failure semantics and idempotence (C6, C7) -/

theorem syncGo_ok : ∀ (l : List (String × Option ReleaseJson)) (acc rs : List Element),
    buildAll l = .ok rs → syncGo acc l = .ok (mergeAll acc rs) := by
  intro l
  induction l with
  | nil =>
    intro acc rs h
    injection h with h
    subst h
    rfl
  | cons q rest ih =>
    intro acc rs h
    obtain ⟨t, rj⟩ := q
    unfold buildAll at h
    cases hg : generate_metainfo_release t rj with
    | error e => rw [hg] at h; cases h
    | ok r =>
      rw [hg] at h
      cases hb : buildAll rest with
      | error e => rw [hb] at h; cases h
      | ok rs2 =>
        rw [hb] at h
        injection h with h
        subst h
        unfold syncGo
        rw [hg]
        show syncGo (mergeRelease acc r) rest = _
        rw [ih (mergeRelease acc r) rs2 hb]
        rfl

theorem syncGo_error : ∀ (l : List (String × Option ReleaseJson)) (acc : List Element),
    (∃ p ∈ l, ∃ err, generate_metainfo_release p.1 p.2 = .error err) →
    ∃ err, syncGo acc l = .error err := by
  intro l
  induction l with
  | nil =>
    intro acc h
    obtain ⟨p, hp, _⟩ := h
    cases hp
  | cons q rest ih =>
    intro acc h
    obtain ⟨t, rj⟩ := q
    cases hg : generate_metainfo_release t rj with
    | error e =>
      refine ⟨e, ?_⟩
      unfold syncGo
      rw [hg]
    | ok r =>
      obtain ⟨p, hp, err, herr⟩ := h
      rcases List.mem_cons.mp hp with rfl | hmem
      · rw [hg] at herr; cases herr
      · obtain ⟨e2, he2⟩ := ih (mergeRelease acc r) ⟨p, hmem, err, herr⟩
        refine ⟨e2, ?_⟩
        unfold syncGo
        rw [hg]
        exact he2

/-- **C6.** The synchronizer writes the document exactly once, after all
fetched releases were built and merged: the output is the serialization
of the collection after the whole merge loop; whenever building any
record fails (external-call failure, malformed JSON, or a sanitizer
error on the body), the run aborts with an error and no document bytes
are produced. -/
theorem c6_write_once_or_abort (doc : Element)
    (fetched : List (String × Option ReleaseJson)) :
    (∀ rs, buildAll fetched.reverse = .ok rs →
        sync_metainfo_releases doc fetched =
          .ok (serializeDoc (doc.setChildren (mergeAll doc.children rs)))) ∧
    ((∃ p ∈ fetched, ∃ err, generate_metainfo_release p.1 p.2 = .error err) →
        ∃ err, sync_metainfo_releases doc fetched = .error err) := by
  constructor
  · intro rs h
    unfold sync_metainfo_releases
    rw [syncGo_ok fetched.reverse doc.children rs h]
  · intro h
    obtain ⟨p, hp, err, herr⟩ := h
    obtain ⟨e2, he2⟩ :=
      syncGo_error fetched.reverse doc.children ⟨p, List.mem_reverse.mpr hp, err, herr⟩
    refine ⟨e2, ?_⟩
    unfold sync_metainfo_releases
    rw [he2]

/-- Witness for C6: one successful fetch produces the written document;
one failing fetch aborts with no written bytes. -/
theorem c6_witness :
    sync_metainfo_releases doc0 fetchedGood =
      .ok (serializeDoc (doc0.setChildren (mergeAll doc0.children [relV1]))) ∧
    ∃ err, sync_metainfo_releases doc0 fetchedBad = .error err := by
  constructor
  · exact (c6_write_once_or_abort doc0 fetchedGood).1 [relV1] rfl
  · refine (c6_write_once_or_abort doc0 fetchedBad).2 ⟨("v1.0", none), ?_, "JSONDecodeError", rfl⟩
    simp [fetchedBad]

theorem replaceByVersion_cons (ex : Element) (rest : List Element) (r : Element) :
    replaceByVersion (ex :: rest) r =
      if ex.getAttr "version" == r.getAttr "version" then some (r :: rest)
      else
        match replaceByVersion rest r with
        | some rest2 => some (ex :: rest2)
        | none => none := rfl

theorem replaceByVersion_merge_self (l : List Element) (r : Element) :
    replaceByVersion (mergeRelease l r) r = some (mergeRelease l r) := by
  induction l with
  | nil =>
    show replaceByVersion [r] r = some [r]
    rw [replaceByVersion_cons, if_pos (beq_self_eq_true _)]
  | cons ex rest ih =>
    by_cases hc : (ex.getAttr "version" == r.getAttr "version") = true
    · have hm : mergeRelease (ex :: rest) r = r :: rest := by
        unfold mergeRelease
        rw [replaceByVersion_cons, if_pos hc]
      rw [hm, replaceByVersion_cons, if_pos (beq_self_eq_true _)]
    · cases hrr : replaceByVersion rest r with
      | none =>
        have hm : mergeRelease (ex :: rest) r = r :: ex :: rest := by
          unfold mergeRelease
          rw [replaceByVersion_cons, if_neg hc, hrr]
        rw [hm, replaceByVersion_cons, if_pos (beq_self_eq_true _)]
      | some rest2 =>
        have hmr : mergeRelease rest r = rest2 := by
          unfold mergeRelease
          rw [hrr]
        have hm : mergeRelease (ex :: rest) r = ex :: rest2 := by
          unfold mergeRelease
          rw [replaceByVersion_cons, if_neg hc, hrr]
        have ih2 : replaceByVersion rest2 r = some rest2 := hmr ▸ ih
        rw [hm, replaceByVersion_cons, if_neg hc, ih2]

theorem replaceByVersion_merge_other (r r2 : Element)
    (hne : r.getAttr "version" ≠ r2.getAttr "version") :
    ∀ l : List Element, replaceByVersion l r = some l →
      replaceByVersion (mergeRelease l r2) r = some (mergeRelease l r2) := by
  have hb2 : ¬((r2.getAttr "version" == r.getAttr "version") = true) := by
    rw [beq_eq_false_iff_ne.mpr (fun e => hne e.symm)]
    intro hf
    cases hf
  have hcr2 : ¬((r.getAttr "version" == r2.getAttr "version") = true) := by
    rw [beq_eq_false_iff_ne.mpr hne]
    intro hf
    cases hf
  intro l
  induction l with
  | nil =>
    intro h
    simp [replaceByVersion] at h
  | cons ex rest ih =>
    intro h
    rw [replaceByVersion_cons] at h
    by_cases hc : (ex.getAttr "version" == r.getAttr "version") = true
    · rw [if_pos hc] at h
      injection h with h
      injection h with h1 h2
      subst h1
      cases hrr2 : replaceByVersion rest r2 with
      | none =>
        have hm : mergeRelease (r :: rest) r2 = r2 :: r :: rest := by
          unfold mergeRelease
          rw [replaceByVersion_cons, if_neg hcr2, hrr2]
        rw [hm, replaceByVersion_cons, if_neg hb2, replaceByVersion_cons,
          if_pos (beq_self_eq_true _)]
      | some rest2 =>
        have hm : mergeRelease (r :: rest) r2 = r :: rest2 := by
          unfold mergeRelease
          rw [replaceByVersion_cons, if_neg hcr2, hrr2]
        rw [hm, replaceByVersion_cons, if_pos (beq_self_eq_true _)]
    · rw [if_neg hc] at h
      cases hrr : replaceByVersion rest r with
      | none => rw [hrr] at h; cases h
      | some rr =>
        rw [hrr] at h
        injection h with h
        injection h with h1 h2
        rw [h2] at hrr
        by_cases hc2 : (ex.getAttr "version" == r2.getAttr "version") = true
        · have hm : mergeRelease (ex :: rest) r2 = r2 :: rest := by
            unfold mergeRelease
            rw [replaceByVersion_cons, if_pos hc2]
          rw [hm, replaceByVersion_cons, if_neg hb2, hrr]
        · cases hrr2 : replaceByVersion rest r2 with
          | none =>
            have hm : mergeRelease (ex :: rest) r2 = r2 :: ex :: rest := by
              unfold mergeRelease
              rw [replaceByVersion_cons, if_neg hc2, hrr2]
            rw [hm, replaceByVersion_cons, if_neg hb2, replaceByVersion_cons,
              if_neg hc, hrr]
          | some rest2 =>
            have hmr : mergeRelease rest r2 = rest2 := by
              unfold mergeRelease
              rw [hrr2]
            have hm : mergeRelease (ex :: rest) r2 = ex :: rest2 := by
              unfold mergeRelease
              rw [replaceByVersion_cons, if_neg hc2, hrr2]
            have ih2 : replaceByVersion rest2 r = some rest2 := hmr ▸ ih hrr
            rw [hm, replaceByVersion_cons, if_neg hc, ih2]

theorem mergeAll_preserves_fix (r : Element) :
    ∀ (rs : List Element) (l : List Element),
      replaceByVersion l r = some l →
      rs.all (fun x => !(x.getAttr "version" == r.getAttr "version")) = true →
      replaceByVersion (mergeAll l rs) r = some (mergeAll l rs) := by
  intro rs
  induction rs with
  | nil => intro l h _; exact h
  | cons r2 rest ih =>
    intro l h hall
    rw [List.all_cons, Bool.and_eq_true] at hall
    obtain ⟨h1, h2⟩ := hall
    rw [Bool.not_eq_true'] at h1
    have hne : r.getAttr "version" ≠ r2.getAttr "version" :=
      fun e => (beq_eq_false_iff_ne.mp h1) e.symm
    show replaceByVersion (mergeAll (mergeRelease l r2) rest) r = _
    exact ih (mergeRelease l r2) (replaceByVersion_merge_other r r2 hne l h) h2

theorem mergeAll_fix_members :
    ∀ (rs : List Element) (l : List Element), noDupVersions rs = true →
      ∀ r ∈ rs, replaceByVersion (mergeAll l rs) r = some (mergeAll l rs) := by
  intro rs
  induction rs with
  | nil => intro l _ r hr; cases hr
  | cons r1 rest ih =>
    intro l hnd r hr
    unfold noDupVersions at hnd
    rw [Bool.and_eq_true] at hnd
    obtain ⟨hd1, hd2⟩ := hnd
    rcases List.mem_cons.mp hr with rfl | hmem
    · show replaceByVersion (mergeAll (mergeRelease l r) rest) r = _
      exact mergeAll_preserves_fix r rest (mergeRelease l r)
        (replaceByVersion_merge_self l r) hd1
    · exact ih (mergeRelease l r1) hd2 r hmem

theorem mergeAll_fixed :
    ∀ (rs D : List Element), (∀ r ∈ rs, replaceByVersion D r = some D) →
      mergeAll D rs = D := by
  intro rs
  induction rs with
  | nil => intro D _; rfl
  | cons r1 rest ih =>
    intro D h
    have hm : mergeRelease D r1 = D := by
      unfold mergeRelease
      rw [h r1 (List.mem_cons_self r1 rest)]
    show mergeAll (mergeRelease D r1) rest = D
    rw [hm]
    exact ih D (fun r hr => h r (List.mem_cons_of_mem r1 hr))

/-- **C7.** With the same upstream releases and identical fetched
metadata, a second synchronizer run over the document produced by the
first run writes byte-identical content: each rebuilt record replaces its
own previous copy in place (`mergeAll` is a fixpoint on the merged
collection), so the deterministic serialization reproduces the same
bytes.  The built records are assumed version-distinct, as they are when
tags map to distinct versions. -/
theorem c7_second_run_byte_identical (doc : Element)
    (fetched : List (String × Option ReleaseJson)) (rs : List Element)
    (hbuild : buildAll fetched.reverse = .ok rs)
    (hdistinct : noDupVersions rs = true) :
    sync_metainfo_releases doc fetched =
      .ok (serializeDoc (doc.setChildren (mergeAll doc.children rs))) ∧
    sync_metainfo_releases (doc.setChildren (mergeAll doc.children rs)) fetched =
      .ok (serializeDoc (doc.setChildren (mergeAll doc.children rs))) := by
  constructor
  · unfold sync_metainfo_releases
    rw [syncGo_ok fetched.reverse doc.children rs hbuild]
  · unfold sync_metainfo_releases
    have hch : (doc.setChildren (mergeAll doc.children rs)).children =
        mergeAll doc.children rs := by
      cases doc
      rfl
    rw [hch, syncGo_ok fetched.reverse _ rs hbuild,
      mergeAll_fixed rs _ (mergeAll_fix_members rs doc.children hdistinct)]
    cases doc
    rfl

/-- Witness for C7: rerunning over the document produced from `doc0` and
one release reproduces identical bytes. -/
theorem c7_witness :
    sync_metainfo_releases doc0 fetchedGood =
      .ok (serializeDoc (doc0.setChildren (mergeAll doc0.children [relV1]))) ∧
    sync_metainfo_releases (doc0.setChildren (mergeAll doc0.children [relV1])) fetchedGood =
      .ok (serializeDoc (doc0.setChildren (mergeAll doc0.children [relV1]))) :=
  c7_second_run_byte_identical doc0 fetchedGood [relV1] rfl rfl

/-! ## No-elision runs of the sanitizer (amended C1) -/

theorem esize_pos (e : Element) : 1 ≤ esize e := by
  obtain ⟨t, a, tx, tl, cs⟩ := e
  show 1 ≤ 1 + lsize cs
  omega

/-- On a tree whose nodes all carry allowed tags after remapping, the
sanitizer's traversal performs no elision: it returns the remapped tree,
with the loop index bookkeeping made explicit.  Strong induction on the
measure `2 * size` (node part) and `2 * size + 1` (list part), with the
fuel lower bounds needed by each call. -/
theorem good_process : ∀ n : Nat,
    (∀ e, 2 * esize e ≤ n → goodTree e = true → ∀ fuel k, 2 * esize e + 1 ≤ fuel →
      processNodeF fuel e k = .ok (remapTree e,
        if e.children.length = 0 then k else e.children.length - 1)) ∧
    (∀ cs : List Element, 2 * lsize cs + 1 ≤ n → goodList cs = true →
      ∀ fuel (done : List Element) ptext li, 2 * lsize cs + 2 ≤ fuel →
      processChildrenF fuel done cs ptext li = .ok (done ++ remapList cs, ptext,
        if cs.length = 0 then li else done.length + cs.length - 1)) := by
  intro n
  induction n using Nat.strong_induction_on with
  | _ n ih =>
    constructor
    · intro e hn hgood fuel k hfuel
      obtain ⟨tag, attrs, text, tail, cs⟩ := e
      have hes : esize (Element.mk tag attrs text tail cs) = 1 + lsize cs := rfl
      rw [hes] at hn hfuel
      rw [show goodTree (Element.mk tag attrs text tail cs) =
        (allowedTags.contains (remapTag tag) && goodList cs) from rfl,
        Bool.and_eq_true] at hgood
      obtain ⟨f, rfl⟩ : ∃ f, fuel = f + 1 := ⟨fuel - 1, by omega⟩
      have h2 := (ih (2 * lsize cs + 1) (by omega)).2 cs (le_refl _) hgood.2
        f [] text k (by omega)
      simp only [processNodeF, h2]
      simp only [List.nil_append, List.length_nil, Nat.zero_add]
      rfl
    · intro cs hn hgood fuel done ptext li hfuel
      cases cs with
      | nil =>
        rw [show lsize ([] : List Element) = 0 from rfl] at hfuel
        obtain ⟨f, rfl⟩ : ∃ f, fuel = f + 1 := ⟨fuel - 1, by omega⟩
        simp [processChildrenF, remapList]
      | cons c r =>
        have hls : lsize (c :: r) = esize c + lsize r := rfl
        have hep : 1 ≤ esize c := esize_pos c
        rw [hls] at hn hfuel
        rw [show goodList (c :: r) = (goodTree c && goodList r) from rfl,
          Bool.and_eq_true] at hgood
        obtain ⟨f, rfl⟩ : ∃ f, fuel = f + 1 := ⟨fuel - 1, by omega⟩
        have h1 := (ih (2 * esize c) (by omega)).1 c (le_refl _) hgood.1
          f done.length (by omega)
        have hcont : allowedTags.contains (remapTree c).tag = true := by
          have hg1 := hgood.1
          obtain ⟨ct, ca, cx, cl, cc⟩ := c
          rw [show goodTree (Element.mk ct ca cx cl cc) =
            (allowedTags.contains (remapTag ct) && goodList cc) from rfl,
            Bool.and_eq_true] at hg1
          exact hg1.1
        have h2 := (ih (2 * lsize r + 1) (by omega)).2 r (le_refl _) hgood.2 f
          (done ++ [remapTree c]) ptext done.length (by omega)
        simp only [processChildrenF, h1, if_pos hcont, h2]
        cases r with
        | nil => simp [remapList]
        | cons c2 r2 =>
          simp [remapList, List.append_assoc, List.length_append]
          omega

/-- On a no-elision tree, remapping yields allowed tags everywhere. -/
theorem good_remap_allowed : ∀ n : Nat,
    (∀ e, 2 * esize e ≤ n → goodTree e = true → allowedT (remapTree e) = true) ∧
    (∀ cs : List Element, 2 * lsize cs + 1 ≤ n → goodList cs = true →
      allowedL (remapList cs) = true) := by
  intro n
  induction n using Nat.strong_induction_on with
  | _ n ih =>
    constructor
    · intro e hn hgood
      obtain ⟨tag, attrs, text, tail, cs⟩ := e
      rw [show goodTree (Element.mk tag attrs text tail cs) =
        (allowedTags.contains (remapTag tag) && goodList cs) from rfl,
        Bool.and_eq_true] at hgood
      rw [show esize (Element.mk tag attrs text tail cs) = 1 + lsize cs from rfl] at hn
      show (allowedTags.contains (remapTag tag) && allowedL (remapList cs)) = true
      rw [Bool.and_eq_true]
      exact ⟨hgood.1, (ih (2 * lsize cs + 1) (by omega)).2 cs (le_refl _) hgood.2⟩
    · intro cs hn hgood
      cases cs with
      | nil => rfl
      | cons c r =>
        have hep : 1 ≤ esize c := esize_pos c
        rw [show lsize (c :: r) = esize c + lsize r from rfl] at hn
        rw [show goodList (c :: r) = (goodTree c && goodList r) from rfl,
          Bool.and_eq_true] at hgood
        show (allowedT (remapTree c) && allowedL (remapList r)) = true
        rw [Bool.and_eq_true]
        exact ⟨(ih (2 * esize c) (by omega)).1 c (le_refl _) hgood.1,
          (ih (2 * lsize r + 1) (by omega)).2 r (le_refl _) hgood.2⟩

/-- The C1 invariant does hold on every input whose rendered tree needs
no elision: when every element below the
top-level container has an allowed tag after the strong-to-em remapping,
sanitization succeeds, only remaps tags, and every element of the output
below the container carries an allowed tag. -/
theorem sanitize_no_elision_invariant (e : Element) (h : goodList e.children = true) :
    sanitizeRun e = .ok (remapTree e) ∧ allowedL (remapTree e).children = true := by
  obtain ⟨tag, attrs, text, tail, cs⟩ := e
  rw [show (Element.mk tag attrs text tail cs).children = cs from rfl] at h
  constructor
  · have hfuel : 2 * esize (Element.mk tag attrs text tail cs) + 1 =
        (2 * lsize cs + 2) + 1 := by
      rw [show esize (Element.mk tag attrs text tail cs) = 1 + lsize cs from rfl]
      ring
    unfold sanitizeRun
    rw [hfuel]
    have h2 := (good_process (2 * lsize cs + 1)).2 cs (le_refl _) h
      (2 * lsize cs + 2) [] text 0 (le_refl _)
    simp only [processNodeF, h2]
    simp only [List.nil_append]
    rfl
  · show allowedL (remapList cs) = true
    exact (good_remap_allowed (2 * lsize cs + 1)).2 cs (le_refl _) h

/-- Concrete instance: a paragraph with strong emphasis needs no elision;
sanitization remaps `strong` to `em` and yields only allowed tags. -/
theorem sanitize_no_elision_example :
    goodList paraBody.children = true ∧
      (sanitizeRun paraBody = .ok (remapTree paraBody) ∧
        allowedL (remapTree paraBody).children = true) :=
  ⟨rfl, sanitize_no_elision_invariant paraBody rfl⟩

end RuffleMeta
